import Mathlib

/-!
Shallow embedding of `mpi_matrix_multiplication.py` and
`serial_matrix_multiplication.py` from the repository
`arunvatty/mpi_matrix_multiplication`.

Matrices (numpy 2-d float64 arrays) are modelled as row-major lists of rows
of rationals; exact rational arithmetic stands in for double precision, so
"equal within tolerance 1e-10" statements are settled against exact results
together with an explicit model of `np.allclose`.

The SPMD execution is flattened: every rendezvous transfer delivers its
payload by value, so a worker's received row block is exactly the slice the
root sent (lines 44-60 of the source), and the block the root receives in
the gather phase is exactly the local product the worker computed
(lines 98-106).  Communication structure (which sends/receives with which
tags each rank issues) is modelled separately as event lists.
-/

/-- A dense row-major matrix: a list of rows. -/
abbrev Mat := List (List ℚ)

/-- Dot product of two vectors (`np.dot` on 1-d slices): sum of pairwise
products over the common length. -/
def dotProd (xs ys : List ℚ) : ℚ :=
  (List.zipWith (fun a b => a * b) xs ys).sum

/-- Column `j` of a matrix. -/
def matCol (B : Mat) (j : ℕ) : List ℚ :=
  B.map (fun row => row.getD j 0)

/-- Number of columns of a matrix (length of its first row, 0 if empty). -/
def numCols (B : Mat) : ℕ := (B.headD []).length

/-- Model of `np.dot(A, B)` for 2-d arrays:
`C[i][j] = Σ_p A[i][p] * B[p][j]`. -/
def np_dot (A B : Mat) : Mat :=
  A.map (fun row => (List.range (numCols B)).map (fun j => dotProd row (matCol B j)))

/-- Model of `serial_matrix_multiply(A, B)` (serial_matrix_multiplication.py, lines
12-21): `return np.dot(A, B)`. -/
def serial_matrix_multiply (A B : Mat) : Mat := np_dot A B

/-- Model of `np.zeros((r, c))`. -/
def zerosMat (r c : ℕ) : Mat :=
  List.replicate r (List.replicate c 0)

/-- The `local_rows` computed by `distribute_matrix_rows` (lines 28-37): with
`rows_per_proc = size // num_procs` and `remainder = size % num_procs`,
a rank below the remainder gets `rows_per_proc + 1` rows, the rest get
`rows_per_proc`.  The gather loop of `mpi_matrix_multiply` (lines 90-96)
recomputes `proc_rows` with the same formula. -/
def local_rows (size num_procs rank : ℕ) : ℕ :=
  if rank < size % num_procs then size / num_procs + 1 else size / num_procs

/-- The `start_row` computed by `distribute_matrix_rows` (lines 28-37); the
scatter loop (lines 45-50) and the gather loop (lines 90-96) recompute
`proc_start` with the same formula. -/
def start_row (size num_procs rank : ℕ) : ℕ :=
  if rank < size % num_procs then rank * (size / num_procs + 1)
  else size % num_procs * (size / num_procs + 1) + (rank - size % num_procs) * (size / num_procs)

/-- Python slice `A[start : start + cnt]` on rows. -/
def rowSlice (A : Mat) (start cnt : ℕ) : Mat :=
  (A.drop start).take cnt

/-- The row block rank `rank` holds after `distribute_matrix_rows`: the root
keeps `A[start_row : start_row + local_rows]` (line 56); a worker receives
exactly the slice the root sent it (lines 53 and 60); a worker whose
`local_rows` is 0 keeps the `np.zeros((0, size))` it allocated at line 40,
which is the empty list of rows, the same as the empty slice. -/
def local_A (A : Mat) (size num_procs rank : ℕ) : Mat :=
  rowSlice A (start_row size num_procs rank) (local_rows size num_procs rank)

/-- The `local_C` of `mpi_matrix_multiply` (lines 78-80): `np.zeros((local_rows,
size))`, overwritten by `np.dot(local_A, B)` when `local_rows > 0`. -/
def local_C (A B : Mat) (size num_procs rank : ℕ) : Mat :=
  if 0 < local_rows size num_procs rank
  then np_dot (local_A A size num_procs rank) B
  else zerosMat (local_rows size num_procs rank) size

/-- Numpy row-range assignment `C[start : start + blk.length] = blk`
(lines 86 and 100; the assigned block always has exactly the sliced
number of rows there). -/
def setRows (C : Mat) (start : ℕ) (blk : Mat) : Mat :=
  C.take start ++ blk ++ C.drop (start + blk.length)

/-- The gather loop of `mpi_matrix_multiply` at the root (lines 89-100):
for `proc` in `1 .. num_procs - 1`, if that rank's row count is positive,
receive its local product and write it at its start row; `fuel` counts the
remaining iterations. -/
def gather_loop (A B : Mat) (size num_procs : ℕ) (C : Mat) (proc fuel : ℕ) : Mat :=
  match fuel with
  | 0 => C
  | f + 1 =>
    gather_loop A B size num_procs
      (if 0 < local_rows size num_procs proc
       then setRows C (start_row size num_procs proc) (local_C A B size num_procs proc)
       else C) (proc + 1) f

/-- The matrix the root returns from `mpi_matrix_multiply` (lines 83-102),
as a function of the authoritative `A` and the broadcast `B`:
`C = np.zeros((size, size))`, the root's own block written at its start row
(line 86), then the gather loop over ranks `1 .. num_procs - 1`. -/
def gather_result (A B : Mat) (size num_procs : ℕ) : Mat :=
  let C0 := setRows (zerosMat size size) (start_row size num_procs 0)
    (local_C A B size num_procs 0)
  gather_loop A B size num_procs C0 1 (num_procs - 1)

/-- Model of numpy's global RandomState.  `np.random.seed(n)` replaces the
global state by a state determined by `n` alone; the claims depend only on
seeding being deterministic, so states are natural numbers and the seed is
the state. -/
def np_random_seed (n : ℕ) : ℕ := n

/-- One step of the modelled generator (a linear congruential step standing
in for numpy's Mersenne twister; the claims depend only on the draw being a
deterministic function of the state). -/
def lcg (st : ℕ) : ℕ := (st * 1103515245 + 12345) % 2147483648

/-- Draw `n` uniform values from the modelled generator, threading the
state. -/
def drawList : ℕ → ℕ → List ℚ × ℕ
  | 0, st => ([], st)
  | n + 1, st =>
    let st' := lcg st
    let q := drawList n st'
    (((((st' % 1000000 : ℕ) : ℚ)) / 1000000) :: q.1, q.2)

/-- Model of `np.random.rand(r, c)`: an `r × c` matrix of draws from the
global state, threading the state row by row. -/
def np_random_rand (r c : ℕ) (st : ℕ) : Mat × ℕ :=
  match r with
  | 0 => ([], st)
  | r' + 1 =>
    let p := drawList c st
    let q := np_random_rand r' c p.2
    (p.1 :: q.1, q.2)

/-- Model of `initialize_matrices(size, rank)` (lines 13-21): on the root, seed the
global generator with the constant 42 and draw A then B; on any other rank
return `(None, None)` leaving the generator state untouched. -/
def initialize_matrices (size rank : ℕ) (st : ℕ) : (Option Mat × Option Mat) × ℕ :=
  if rank = 0 then
    let st0 := np_random_seed 42
    let pA := np_random_rand size size st0
    let pB := np_random_rand size size pA.2
    ((some pA.1, some pB.1), pB.2)
  else ((none, none), st)

/-- The matrix A the root generates for a given size (seed 42, first
draw). -/
def genA (size : ℕ) : Mat :=
  (np_random_rand size size (np_random_seed 42)).1

/-- The matrix B the root generates for a given size (seed 42, second
draw). -/
def genB (size : ℕ) : Mat :=
  (np_random_rand size size (np_random_rand size size (np_random_seed 42)).2).1

/-- Model of `mpi_matrix_multiply(size, comm, rank, num_procs)` (lines 64-107), with
the generator state threaded explicitly: the root generates A and B,
`comm.bcast(B, root=0)` gives every rank the root's B, rows of A are
distributed, each rank multiplies its block, and the root assembles and
returns the full product while every other rank returns `None`. -/
def mpi_matrix_multiply (size num_procs rank : ℕ) (st : ℕ) : Option Mat × ℕ :=
  let p := initialize_matrices size rank st
  if rank = 0 then
    (some (gather_result (p.1.1.getD []) (genB size) size num_procs), p.2)
  else (none, p.2)

/-- A point-to-point communication event or the collective broadcast of B.
`send src dst tag` / `recv src dst tag` mirror `comm.send(..., dest, tag)`
and `comm.recv(source, tag)`. -/
inductive CommEvent where
  | bcast : CommEvent
  | send : ℕ → ℕ → ℕ → CommEvent
  | recv : ℕ → ℕ → ℕ → CommEvent
deriving DecidableEq

/-- The sends the root issues in the scatter phase (lines 44-53): for each
`proc` in `1 .. num_procs - 1`, a send tagged `proc` to `proc`, skipped when
that rank's row count is 0. -/
def scatter_sends (size num_procs : ℕ) : List CommEvent :=
  (List.range' 1 (num_procs - 1)).filterMap (fun proc =>
    if 0 < local_rows size num_procs proc
    then some (CommEvent.send 0 proc proc) else none)

/-- The receives a non-root rank issues in the scatter phase (lines 59-60):
one receive from the root tagged with its own rank, skipped when its row
count is 0. -/
def scatter_recv_events (size num_procs rank : ℕ) : List CommEvent :=
  if 0 < local_rows size num_procs rank
  then [CommEvent.recv 0 rank rank] else []

/-- The sends a non-root rank issues in the gather phase (lines 105-106):
one send of its local product to the root tagged `rank + 100`, skipped when
its row count is 0. -/
def gather_send_events (size num_procs rank : ℕ) : List CommEvent :=
  if 0 < local_rows size num_procs rank
  then [CommEvent.send rank 0 (rank + 100)] else []

/-- The receives the root issues in the gather phase (lines 89-99): for each
`proc` in `1 .. num_procs - 1`, a receive from `proc` tagged `proc + 100`,
skipped when that rank's row count is 0. -/
def gather_recvs (size num_procs : ℕ) : List CommEvent :=
  (List.range' 1 (num_procs - 1)).filterMap (fun proc =>
    if 0 < local_rows size num_procs proc
    then some (CommEvent.recv proc 0 (proc + 100)) else none)

/-- The tag of a point-to-point event. -/
def eventTag : CommEvent → Option ℕ
  | CommEvent.bcast => none
  | CommEvent.send _ _ t => some t
  | CommEvent.recv _ _ t => some t

/-- The tags used by scatter-phase transfers, keyed by destination rank. -/
def scatter_tags (size num_procs : ℕ) : List ℕ :=
  (scatter_sends size num_procs).filterMap eventTag

/-- The tags used by gather-phase transfers, keyed by source rank. -/
def gather_tags (size num_procs : ℕ) : List ℕ :=
  (gather_recvs size num_procs).filterMap eventTag

/-- Python runtime errors the call can raise. -/
inductive PyError where
  | valueError : PyError
  | zeroDivisionError : PyError
deriving DecidableEq

/-- Version of `initialize_matrices` with the error case made explicit: on the root,
`np.random.rand(size, size)` raises `ValueError` for a negative size
(lines 16-18); otherwise it behaves as `initialize_matrices`. -/
def initialize_matrices_checked (size : ℤ) (rank : ℕ) (st : ℕ) :
    Except PyError ((Option Mat × Option Mat) × ℕ) :=
  if rank = 0 then
    if size < 0 then Except.error PyError.valueError
    else Except.ok (initialize_matrices size.toNat 0 st)
  else Except.ok ((none, none), st)

/-- The first statement of `distribute_matrix_rows` (line 28) computes
`size // num_procs`, which raises `ZeroDivisionError` when
`num_procs = 0`. -/
def distribute_rows_precheck (num_procs : ℕ) : Except PyError Unit :=
  if num_procs = 0 then Except.error PyError.zeroDivisionError else Except.ok ()

/-- The ordered communication events the root issues in one call of
`mpi_matrix_multiply`, stopped at the first raised error, following the
statement order of lines 69-107: `initialize_matrices` (line 69, raises on
a negative size before any communication), `comm.bcast(B, root=0)`
(line 72), `distribute_matrix_rows` (line 75, whose first statement raises
`ZeroDivisionError` when `num_procs = 0`, after the broadcast), then the
scatter sends and the gather receives. -/
def root_events_until_error (size : ℤ) (num_procs : ℕ) :
    List CommEvent × Option PyError :=
  match initialize_matrices_checked size 0 0 with
  | Except.error e => ([], some e)
  | Except.ok _ =>
    match distribute_rows_precheck num_procs with
    | Except.error e => ([CommEvent.bcast], some e)
    | Except.ok _ =>
      (CommEvent.bcast ::
        (scatter_sends size.toNat num_procs ++ gather_recvs size.toNat num_procs),
       none)

/-- The tolerance `1e-10` used at line 164 (`rtol=1e-10, atol=1e-10`),
as an exact rational. -/
def tol : ℚ := 1 / 10000000000

/-- Elementwise closeness test of `np.allclose`:
`|a - b| <= atol + rtol * |b|`. -/
def np_isclose (a b rtol atol : ℚ) : Bool :=
  |a - b| ≤ atol + rtol * |b|

/-- Model of `np.allclose(A, B, rtol, atol)` for same-shape 2-d arrays:
shapes agree and every pair of entries is elementwise close. -/
def np_allclose (A B : Mat) (rtol atol : ℚ) : Bool :=
  (A.length == B.length) &&
  (List.zip A B).all (fun rc =>
    (rc.1.length == rc.2.length) &&
    (List.zip rc.1 rc.2).all (fun ab => np_isclose ab.1 ab.2 rtol atol))

/-- Model of `np.max(np.abs(X - Y))` over same-shape 2-d arrays (line 169), with
max of the empty collection taken as 0. -/
def maxAbsDiff (X Y : Mat) : ℚ :=
  (((List.zip X Y).map (fun rc =>
    (List.zip rc.1 rc.2).map (fun ab => |ab.1 - ab.2|))).flatten).foldr max 0

/-- Model of `verify_correctness(size, comm, rank)` (lines 146-173): the root
regenerates A and B from seed 42, computes the serial product, runs the
distributed multiply, and returns `True` when `np.allclose` holds with
`rtol = atol = 1e-10`, else `False` together with the reported maximum
absolute difference; every non-root rank returns `None` and reports
nothing. -/
def verify_correctness (size num_procs rank : ℕ) (st : ℕ) : Option Bool × Option ℚ :=
  let C_serial := np_dot (genA size) (genB size)
  let C_mpi := (mpi_matrix_multiply size num_procs rank st).1
  if rank = 0 then
    if np_allclose C_serial (C_mpi.getD []) tol tol
    then (some true, none)
    else (some false, some (maxAbsDiff C_serial (C_mpi.getD [])))
  else (none, none)

/-- Rank 0 starts at row 0. -/
theorem start_row_zero (size num_procs : ℕ) : start_row size num_procs 0 = 0 := by
  unfold start_row
  split_ifs with h
  · simp
  · have h0 : size % num_procs = 0 := by omega
    simp [h0]

/-- Row ranges are laid out contiguously: each rank starts where the
previous one ends. -/
theorem start_row_succ (size num_procs r : ℕ) :
    start_row size num_procs (r + 1)
      = start_row size num_procs r + local_rows size num_procs r := by
  unfold start_row local_rows
  rcases lt_trichotomy (r + 1) (size % num_procs) with h | h | h
  · rw [if_pos h, if_pos (by omega), if_pos (by omega)]
    ring
  · rw [if_neg (by omega), if_pos (by omega), if_pos (by omega)]
    have hm : size % num_procs = r + 1 := h.symm
    rw [hm, Nat.sub_self]
    ring
  · rw [if_neg (by omega), if_neg (by omega), if_neg (by omega)]
    have h2 : r + 1 - size % num_procs = (r - size % num_procs) + 1 := by omega
    rw [h2]
    ring

/-- Start rows are monotone in the rank. -/
theorem start_row_mono (size num_procs r s : ℕ) (h : r ≤ s) :
    start_row size num_procs r ≤ start_row size num_procs s := by
  induction s with
  | zero =>
    have h0 : r = 0 := by omega
    rw [h0]
  | succ n ih =>
    rcases Nat.lt_or_ge r (n + 1) with h2 | h2
    · have h3 := ih (by omega)
      rw [start_row_succ]
      omega
    · have h3 : r = n + 1 := by omega
      rw [h3]

/-- One past the last rank, the start row is the whole matrix: the ranges
end exactly at `size`. -/
theorem start_row_total (size num_procs : ℕ) (h : 1 ≤ num_procs) :
    start_row size num_procs num_procs = size := by
  have hm : size % num_procs < num_procs := Nat.mod_lt _ (by omega)
  have hd : num_procs * (size / num_procs) + size % num_procs = size :=
    Nat.div_add_mod size num_procs
  unfold start_row
  rw [if_neg (by omega)]
  obtain ⟨q, hq⟩ := Nat.exists_eq_add_of_le (le_of_lt hm)
  have h5 : num_procs - size % num_procs = q := by omega
  rw [h5]
  have h6 : (size % num_procs + q) * (size / num_procs) + size % num_procs = size := by
    rw [← hq]
    exact hd
  calc size % num_procs * (size / num_procs + 1) + q * (size / num_procs)
      = (size % num_procs + q) * (size / num_procs) + size % num_procs := by ring
    _ = size := h6

/-- The row counts over ranks `0 .. k-1` sum to the start row of rank
`k`. -/
theorem sum_local_rows (size num_procs k : ℕ) :
    (∑ r ∈ Finset.range k, local_rows size num_procs r)
      = start_row size num_procs k := by
  induction k with
  | zero => simp [start_row_zero]
  | succ n ih => rw [Finset.sum_range_succ, ih, start_row_succ]

/-- The modelled `np.random.rand(r, c)` produces exactly `r` rows. -/
theorem np_random_rand_length (r c st : ℕ) : (np_random_rand r c st).1.length = r := by
  induction r generalizing st with
  | zero => rfl
  | succ n ih =>
    simp only [np_random_rand, List.length_cons]
    rw [ih]

/-- The product has as many rows as its left factor. -/
theorem np_dot_length (A B : Mat) : (np_dot A B).length = A.length := by
  simp [np_dot]

/-- Multiplying a row slice of A equals the same row slice of the full
product: `np.dot` maps rows of A independently. -/
theorem np_dot_rowSlice (A B : Mat) (s c : ℕ) :
    np_dot (rowSlice A s c) B = rowSlice (np_dot A B) s c := by
  simp [np_dot, rowSlice, List.map_take, List.map_drop]

/-- Every rank's local product block is the corresponding row slice of the
full product. -/
theorem local_C_eq_slice (A B : Mat) (size num_procs r : ℕ) :
    local_C A B size num_procs r
      = rowSlice (np_dot A B) (start_row size num_procs r) (local_rows size num_procs r) := by
  unfold local_C
  split_ifs with h
  · rw [← np_dot_rowSlice]
    rfl
  · have h0 : local_rows size num_procs r = 0 := by omega
    rw [h0]
    simp [zerosMat, rowSlice]

/-- Writing a block inside the bounds of C preserves the row count. -/
theorem setRows_length (C : Mat) (s : ℕ) (blk : Mat) (h : s + blk.length ≤ C.length) :
    (setRows C s blk).length = C.length := by
  simp only [setRows, List.length_append, List.length_take, List.length_drop]
  omega

/-- The written region of `setRows` holds the block, and the rows below it
are untouched. -/
theorem setRows_take (C : Mat) (s : ℕ) (blk : Mat) (h : s ≤ C.length) :
    (setRows C s blk).take (s + blk.length) = C.take s ++ blk := by
  unfold setRows
  have h1 : (C.take s ++ blk).length = s + blk.length := by
    simp only [List.length_append, List.length_take]
    omega
  calc ((C.take s ++ blk) ++ C.drop (s + blk.length)).take (s + blk.length)
      = ((C.take s ++ blk) ++ C.drop (s + blk.length)).take (C.take s ++ blk).length := by
        rw [h1]
    _ = C.take s ++ blk := List.take_left _ _

/-- A list analogue of "two arrays of the same shape with equal prefixes of
full length are equal". -/
theorem eq_of_take_full (X D : Mat) (n : ℕ) (hX : X.length = n) (hD : D.length = n)
    (h : X.take n = D.take n) : X = D := by
  have h1 : X.take n = X := by
    rw [← hX]
    exact List.take_length X
  have h2 : D.take n = D := by
    rw [← hD]
    exact List.take_length D
  rw [← h1, ← h2, h]

/-- Rank 1 starts right after rank 0's rows. -/
theorem start_row_one (size num_procs : ℕ) :
    start_row size num_procs 1 = local_rows size num_procs 0 := by
  have h := start_row_succ size num_procs 0
  rw [start_row_zero] at h
  simpa using h

/-- Invariant of the root's gather loop: if C agrees with the full product
on all rows below the next rank's start row, then after the remaining
iterations it agrees on all rows below `start_row size num_procs num_procs`
and keeps `size` rows. -/
theorem gather_loop_take (A B : Mat) (size num_procs : ℕ) (hA : A.length = size)
    (h1 : 1 ≤ num_procs) :
    ∀ fuel proc C, proc + fuel = num_procs → C.length = size →
      C.take (start_row size num_procs proc)
        = (np_dot A B).take (start_row size num_procs proc) →
      (gather_loop A B size num_procs C proc fuel).length = size ∧
      (gather_loop A B size num_procs C proc fuel).take (start_row size num_procs num_procs)
        = (np_dot A B).take (start_row size num_procs num_procs) := by
  intro fuel
  induction fuel with
  | zero =>
    intro proc C hpf hC hT
    have hp : proc = num_procs := by omega
    rw [hp] at hT
    exact ⟨hC, hT⟩
  | succ f ih =>
    intro proc C hpf hC hT
    have hstep : gather_loop A B size num_procs C proc (f + 1)
        = gather_loop A B size num_procs
          (if 0 < local_rows size num_procs proc
           then setRows C (start_row size num_procs proc) (local_C A B size num_procs proc)
           else C) (proc + 1) f := rfl
    rw [hstep]
    by_cases hr : 0 < local_rows size num_procs proc
    · rw [if_pos hr]
      have hDlen : (np_dot A B).length = size := by rw [np_dot_length, hA]
      have hsc : start_row size num_procs proc + local_rows size num_procs proc ≤ size := by
        have h2 := start_row_mono size num_procs (proc + 1) num_procs (by omega)
        rw [start_row_succ, start_row_total size num_procs h1] at h2
        exact h2
      have hblk : (local_C A B size num_procs proc).length
          = local_rows size num_procs proc := by
        rw [local_C_eq_slice]
        simp only [rowSlice, List.length_take, List.length_drop]
        omega
      apply ih
      · omega
      · rw [setRows_length]
        · exact hC
        · rw [hblk]
          omega
      · rw [start_row_succ]
        calc (setRows C (start_row size num_procs proc)
                (local_C A B size num_procs proc)).take
              (start_row size num_procs proc + local_rows size num_procs proc)
            = (setRows C (start_row size num_procs proc)
                (local_C A B size num_procs proc)).take
              (start_row size num_procs proc + (local_C A B size num_procs proc).length) := by
              rw [hblk]
          _ = C.take (start_row size num_procs proc) ++ local_C A B size num_procs proc := by
              rw [setRows_take]
              omega
          _ = (np_dot A B).take (start_row size num_procs proc)
                ++ ((np_dot A B).drop (start_row size num_procs proc)).take
                    (local_rows size num_procs proc) := by
              rw [hT, local_C_eq_slice]
              rfl
          _ = (np_dot A B).take
                (start_row size num_procs proc + local_rows size num_procs proc) :=
              (List.take_add _ _ _).symm
    · rw [if_neg hr]
      apply ih
      · omega
      · exact hC
      · have h0 : local_rows size num_procs proc = 0 := by omega
        rw [start_row_succ, h0]
        simpa using hT

/-- The root assembles exactly the full product `np.dot(A, B)` whenever A
has `size` rows and there is at least one process. -/
theorem gather_result_eq (A B : Mat) (size num_procs : ℕ) (hA : A.length = size)
    (h1 : 1 ≤ num_procs) : gather_result A B size num_procs = np_dot A B := by
  unfold gather_result
  have hDlen : (np_dot A B).length = size := by rw [np_dot_length, hA]
  have hs0 : start_row size num_procs 0 = 0 := start_row_zero size num_procs
  have hc0 : local_rows size num_procs 0 ≤ size := by
    have h2 := start_row_mono size num_procs 1 num_procs h1
    rw [start_row_total size num_procs h1, start_row_one] at h2
    exact h2
  have hblk0 : (local_C A B size num_procs 0).length = local_rows size num_procs 0 := by
    rw [local_C_eq_slice]
    simp only [rowSlice, List.length_take, List.length_drop]
    omega
  have hZ : (zerosMat size size).length = size := List.length_replicate size _
  have hC0len : (setRows (zerosMat size size) (start_row size num_procs 0)
      (local_C A B size num_procs 0)).length = size := by
    rw [setRows_length]
    · exact hZ
    · rw [hblk0, hs0, hZ]
      omega
  have hC0take : (setRows (zerosMat size size) (start_row size num_procs 0)
        (local_C A B size num_procs 0)).take (start_row size num_procs 1)
      = (np_dot A B).take (start_row size num_procs 1) := by
    rw [start_row_one, hs0, ← hblk0]
    calc (setRows (zerosMat size size) 0 (local_C A B size num_procs 0)).take
          (local_C A B size num_procs 0).length
        = (setRows (zerosMat size size) 0 (local_C A B size num_procs 0)).take
          (0 + (local_C A B size num_procs 0).length) := by
          rw [Nat.zero_add]
      _ = (zerosMat size size).take 0 ++ local_C A B size num_procs 0 := by
          rw [setRows_take]
          omega
      _ = local_C A B size num_procs 0 := by simp
      _ = ((np_dot A B).drop 0).take (local_rows size num_procs 0) := by
          rw [local_C_eq_slice, hs0]
          rfl
      _ = (np_dot A B).take (local_C A B size num_procs 0).length := by
          rw [hblk0]
          simp
  obtain ⟨hlen, htake⟩ := gather_loop_take A B size num_procs hA h1 (num_procs - 1) 1
    (setRows (zerosMat size size) (start_row size num_procs 0)
      (local_C A B size num_procs 0)) (by omega) hC0len hC0take
  rw [start_row_total size num_procs h1] at htake
  exact eq_of_take_full _ _ size hlen hDlen htake

/-- Zipping a list with itself pairs each element with itself. -/
theorem zip_self {α : Type} (l : List α) : List.zip l l = l.map (fun x => (x, x)) := by
  induction l with
  | nil => rfl
  | cons a t ih => simp [ih]

/-- Every rational is close to itself at the tolerance of the source. -/
theorem np_isclose_self (a : ℚ) : np_isclose a a tol tol = true := by
  unfold np_isclose tol
  simp only [sub_self, abs_zero, decide_eq_true_eq]
  positivity

/-- The `np.allclose` test holds reflexively at the source's tolerance. -/
theorem np_allclose_self (X : Mat) : np_allclose X X tol tol = true := by
  unfold np_allclose
  simp [zip_self, List.all_map, Function.comp, np_isclose_self]
  intro row hrow x y hy hyx
  rw [← hyx]
  exact np_isclose_self y

/-- On the root, `mpi_matrix_multiply` returns exactly the full product of
the generated matrices. -/
theorem mpi_root_result (size num_procs st : ℕ) (hp : 1 ≤ num_procs) :
    (mpi_matrix_multiply size num_procs 0 st).1
      = some (np_dot (genA size) (genB size)) := by
  have hA : (genA size).length = size := np_random_rand_length size size _
  have hroot : (mpi_matrix_multiply size num_procs 0 st).1
      = some (gather_result (genA size) (genB size) size num_procs) := by
    simp [mpi_matrix_multiply, initialize_matrices, genA]
  rw [hroot, gather_result_eq (genA size) (genB size) size num_procs hA hp]

/-- Characterisation of the root's scatter-phase sends. -/
theorem mem_scatter_sends (size num_procs r : ℕ) :
    CommEvent.send 0 r r ∈ scatter_sends size num_procs
      ↔ 1 ≤ r ∧ r < num_procs ∧ 0 < local_rows size num_procs r := by
  unfold scatter_sends
  rw [List.mem_filterMap]
  constructor
  · rintro ⟨proc, hpm, heq⟩
    rw [List.mem_range'_1] at hpm
    by_cases hc : 0 < local_rows size num_procs proc
    · rw [if_pos hc] at heq
      have h2 : proc = r := by
        have h3 := Option.some.inj heq
        cases h3
        rfl
      rw [h2] at hpm hc
      exact ⟨hpm.1, by omega, hc⟩
    · rw [if_neg hc] at heq
      cases heq
  · rintro ⟨h1, h2, h3⟩
    refine ⟨r, ?_, ?_⟩
    · rw [List.mem_range'_1]
      omega
    · rw [if_pos h3]

/-- Characterisation of the root's gather-phase receives. -/
theorem mem_gather_recvs (size num_procs r : ℕ) :
    CommEvent.recv r 0 (r + 100) ∈ gather_recvs size num_procs
      ↔ 1 ≤ r ∧ r < num_procs ∧ 0 < local_rows size num_procs r := by
  unfold gather_recvs
  rw [List.mem_filterMap]
  constructor
  · rintro ⟨proc, hpm, heq⟩
    rw [List.mem_range'_1] at hpm
    by_cases hc : 0 < local_rows size num_procs proc
    · rw [if_pos hc] at heq
      have h2 : proc = r := by
        have h3 := Option.some.inj heq
        cases h3
        rfl
      rw [h2] at hpm hc
      exact ⟨hpm.1, by omega, hc⟩
    · rw [if_neg hc] at heq
      cases heq
  · rintro ⟨h1, h2, h3⟩
    refine ⟨r, ?_, ?_⟩
    · rw [List.mem_range'_1]
      omega
    · rw [if_pos h3]

/-- Any scatter-phase tag is a rank: at least 1 and below `num_procs`. -/
theorem scatter_tags_bounds (size num_procs t : ℕ)
    (h : t ∈ scatter_tags size num_procs) : 1 ≤ t ∧ t < num_procs := by
  unfold scatter_tags scatter_sends at h
  rw [List.mem_filterMap] at h
  obtain ⟨e, he, htag⟩ := h
  rw [List.mem_filterMap] at he
  obtain ⟨proc, hpm, heq⟩ := he
  rw [List.mem_range'_1] at hpm
  by_cases hc : 0 < local_rows size num_procs proc
  · rw [if_pos hc] at heq
    have h2 := Option.some.inj heq
    rw [← h2] at htag
    have h3 : proc = t := Option.some.inj htag
    omega
  · rw [if_neg hc] at heq
    cases heq

/-- Any gather-phase tag is a rank plus 100: at least 101. -/
theorem gather_tags_bounds (size num_procs t : ℕ)
    (h : t ∈ gather_tags size num_procs) : 101 ≤ t ∧ t < num_procs + 100 := by
  unfold gather_tags gather_recvs at h
  rw [List.mem_filterMap] at h
  obtain ⟨e, he, htag⟩ := h
  rw [List.mem_filterMap] at he
  obtain ⟨proc, hpm, heq⟩ := he
  rw [List.mem_range'_1] at hpm
  by_cases hc : 0 < local_rows size num_procs proc
  · rw [if_pos hc] at heq
    have h2 := Option.some.inj heq
    rw [← h2] at htag
    have h3 : proc + 100 = t := Option.some.inj htag
    omega
  · rw [if_neg hc] at heq
    cases heq

/-- Every row index below `start_row size num_procs k` is covered by some
rank below `k`. -/
theorem cover_exists (size num_procs : ℕ) :
    ∀ k i, i < start_row size num_procs k →
      ∃ r, r < k ∧ start_row size num_procs r ≤ i
        ∧ i < start_row size num_procs r + local_rows size num_procs r := by
  intro k
  induction k with
  | zero =>
    intro i hi
    rw [start_row_zero] at hi
    omega
  | succ n ih =>
    intro i hi
    rw [start_row_succ] at hi
    by_cases h2 : i < start_row size num_procs n
    · obtain ⟨r, hr⟩ := ih i h2
      exact ⟨r, by omega, hr.2.1, hr.2.2⟩
    · exact ⟨n, by omega, by omega, by omega⟩

/-- C1: for every matrix size >= 1 and process count >= 1, the matrix the
root returns from `mpi_matrix_multiply` equals the serial reference product
`np.dot(A, B)` of the same generated matrices A and B — exactly, hence in
particular elementwise within absolute and relative tolerance 1e-10 as
checked by `np.allclose`. -/
theorem mpi_root_matches_serial (size num_procs st : ℕ)
    (hsize : 1 ≤ size) (hp : 1 ≤ num_procs) :
    (mpi_matrix_multiply size num_procs 0 st).1
      = some (serial_matrix_multiply (genA size) (genB size))
    ∧ np_allclose (serial_matrix_multiply (genA size) (genB size))
        (((mpi_matrix_multiply size num_procs 0 st).1).getD []) tol tol = true := by
  have h := mpi_root_result size num_procs st hp
  unfold serial_matrix_multiply
  rw [h]
  exact ⟨rfl, np_allclose_self _⟩

/-- Witness for C1 at `size = 1`, `num_procs = 1`. -/
theorem mpi_root_matches_serial_witness :
    (mpi_matrix_multiply 1 1 0 0).1
      = some (serial_matrix_multiply (genA 1) (genB 1))
    ∧ np_allclose (serial_matrix_multiply (genA 1) (genB 1))
        (((mpi_matrix_multiply 1 1 0 0).1).getD []) tol tol = true :=
  mpi_root_matches_serial 1 1 0 (by decide) (by decide)

/-- C2: for every `total_rows >= 0` and `world_size >= 1` the per-rank row
ranges sum to `total_rows`, start at row 0, are contiguous in ascending
rank order (each rank starts where the previous ends), are pairwise
disjoint, and every row of `[0, total_rows)` lies in exactly one rank's
range. -/
theorem partition_covers (size num_procs : ℕ) (hp : 1 ≤ num_procs) :
    (∑ r ∈ Finset.range num_procs, local_rows size num_procs r) = size
    ∧ start_row size num_procs 0 = 0
    ∧ (∀ r, start_row size num_procs (r + 1)
        = start_row size num_procs r + local_rows size num_procs r)
    ∧ (∀ r s, r < s →
        start_row size num_procs r + local_rows size num_procs r
          ≤ start_row size num_procs s)
    ∧ (∀ i, i < size → ∃! r, r < num_procs ∧ start_row size num_procs r ≤ i
        ∧ i < start_row size num_procs r + local_rows size num_procs r) := by
  have hdisj : ∀ r s, r < s →
      start_row size num_procs r + local_rows size num_procs r
        ≤ start_row size num_procs s := by
    intro r s hrs
    have h2 := start_row_mono size num_procs (r + 1) s hrs
    rw [start_row_succ] at h2
    exact h2
  refine ⟨?_, start_row_zero size num_procs, start_row_succ size num_procs, hdisj, ?_⟩
  · rw [sum_local_rows, start_row_total size num_procs hp]
  · intro i hi
    have hi2 : i < start_row size num_procs num_procs := by
      rw [start_row_total size num_procs hp]
      exact hi
    obtain ⟨r, hr1, hr2, hr3⟩ := cover_exists size num_procs num_procs i hi2
    refine ⟨r, ⟨hr1, hr2, hr3⟩, ?_⟩
    rintro y ⟨hy1, hy2, hy3⟩
    rcases lt_trichotomy y r with h | h | h
    · have h4 := hdisj y r h
      omega
    · exact h
    · have h4 := hdisj r y h
      omega

/-- Witness for C2 at `total_rows = 5`, `world_size = 3`. -/
theorem partition_covers_witness :
    (∑ r ∈ Finset.range 3, local_rows 5 3 r) = 5 :=
  (partition_covers 5 3 (by decide)).1

/-- C3: the remainder distribution formula of `distribute_matrix_rows`:
ranks below the remainder get `base + 1` rows starting at
`rank * (base + 1)`, the rest get `base` rows starting at
`remainder * (base + 1) + (rank - remainder) * base`; in particular for
`total_rows = 5`, `world_size = 3` the ranges are rank 0: rows 0-1,
rank 1: rows 2-3, rank 2: row 4. -/
theorem remainder_distribution :
    (∀ size num_procs r, 1 ≤ num_procs → r < num_procs →
      (r < size % num_procs →
        local_rows size num_procs r = size / num_procs + 1
        ∧ start_row size num_procs r = r * (size / num_procs + 1))
      ∧ (size % num_procs ≤ r →
        local_rows size num_procs r = size / num_procs
        ∧ start_row size num_procs r
          = size % num_procs * (size / num_procs + 1)
            + (r - size % num_procs) * (size / num_procs)))
    ∧ start_row 5 3 0 = 0 ∧ local_rows 5 3 0 = 2
    ∧ start_row 5 3 1 = 2 ∧ local_rows 5 3 1 = 2
    ∧ start_row 5 3 2 = 4 ∧ local_rows 5 3 2 = 1 := by
  constructor
  · intro size num_procs r h1 hr
    constructor
    · intro h
      unfold local_rows start_row
      rw [if_pos h, if_pos h]
      exact ⟨rfl, rfl⟩
    · intro h
      unfold local_rows start_row
      rw [if_neg (by omega), if_neg (by omega)]
      exact ⟨rfl, rfl⟩
  · refine ⟨by decide, by decide, by decide, by decide, by decide, by decide⟩

/-- Witness for C3's universal part at `total_rows = 5`, `world_size = 3`,
rank 0. -/
theorem remainder_distribution_witness :
    local_rows 5 3 0 = 5 / 3 + 1 ∧ start_row 5 3 0 = 0 * (5 / 3 + 1) :=
  (remainder_distribution.1 5 3 0 (by decide) (by decide)).1 (by decide)

/-- C4: in the scatter phase the root sends to a non-root rank exactly when
that rank's row count is positive and the rank posts its receive under
exactly the same condition; symmetrically in the gather phase the rank
sends its result exactly when its row count is positive and the root posts
the matching receive under the same condition. -/
theorem send_recv_skip_match (size num_procs r : ℕ) (h1 : 1 ≤ r) (h2 : r < num_procs) :
    ((CommEvent.send 0 r r ∈ scatter_sends size num_procs)
      ↔ 0 < local_rows size num_procs r)
    ∧ ((CommEvent.recv 0 r r ∈ scatter_recv_events size num_procs r)
      ↔ 0 < local_rows size num_procs r)
    ∧ ((CommEvent.send r 0 (r + 100) ∈ gather_send_events size num_procs r)
      ↔ 0 < local_rows size num_procs r)
    ∧ ((CommEvent.recv r 0 (r + 100) ∈ gather_recvs size num_procs)
      ↔ 0 < local_rows size num_procs r) := by
  refine ⟨?_, ?_, ?_, ?_⟩
  · rw [mem_scatter_sends]
    constructor
    · tauto
    · intro h3
      exact ⟨h1, h2, h3⟩
  · unfold scatter_recv_events
    split_ifs with h3
    · simp [h3]
    · simp [h3]
  · unfold gather_send_events
    split_ifs with h3
    · simp [h3]
    · simp [h3]
  · rw [mem_gather_recvs]
    constructor
    · tauto
    · intro h3
      exact ⟨h1, h2, h3⟩

/-- Witness for C4 at `size = 5`, `num_procs = 3`, rank 1. -/
theorem send_recv_skip_match_witness :
    (CommEvent.send 0 1 1 ∈ scatter_sends 5 3) ↔ 0 < local_rows 5 3 1 :=
  (send_recv_skip_match 5 3 1 (by decide) (by decide)).1

/-- C5 counterexample: at `size = 102`, `world_size = 102` the scatter and
gather tag sets are not disjoint — the scatter send to rank 101 and the
gather send from rank 1 both use tag 101. -/
theorem tag_ranges_collide :
    (101 ∈ scatter_tags 102 102) ∧ (101 ∈ gather_tags 102 102) := by decide

/-- C5 amended: the scatter-phase and gather-phase tag sets are disjoint
for every `world_size ≤ 101` (scatter tags lie in `[1, world_size)`,
gather tags in `[101, world_size + 100)`); for `world_size ≥ 102` they can
collide. -/
theorem tag_ranges_disjoint_below_102 (size num_procs t : ℕ)
    (hp : num_procs ≤ 101) (ht : t ∈ scatter_tags size num_procs) :
    t ∉ gather_tags size num_procs := by
  intro hg
  have h1 := scatter_tags_bounds size num_procs t ht
  have h2 := gather_tags_bounds size num_procs t hg
  omega

/-- Witness for C5's amended theorem at `size = 5`, `num_procs = 3`,
tag 1. -/
theorem tag_ranges_disjoint_below_102_witness : 1 ∉ gather_tags 5 3 :=
  tag_ranges_disjoint_below_102 5 3 1 (by decide) (by decide)

/-- For a negative size, the root raises before issuing any communication
event. -/
theorem root_events_neg (size : ℤ) (num_procs : ℕ) (hs : size < 0) :
    root_events_until_error size num_procs = ([], some PyError.valueError) := by
  unfold root_events_until_error initialize_matrices_checked
  rw [if_pos rfl, if_pos hs]

/-- For `num_procs = 0` and a non-negative size, the root broadcasts B and
only then raises `ZeroDivisionError`. -/
theorem root_events_zero_procs (size : ℤ) (hs : ¬size < 0) :
    root_events_until_error size 0
      = ([CommEvent.bcast], some PyError.zeroDivisionError) := by
  unfold root_events_until_error initialize_matrices_checked distribute_rows_precheck
  rw [if_pos rfl, if_neg hs, if_pos rfl]

/-- C6 counterexample: at `size = 4`, `world_size = 0` the broadcast of B
is issued before the `ZeroDivisionError` surfaces, so the configuration
error is not surfaced before any communication is attempted. -/
theorem bcast_before_zero_division :
    root_events_until_error 4 0 = ([CommEvent.bcast], some PyError.zeroDivisionError)
    ∧ (root_events_until_error 4 0).1 ≠ [] := by
  have h := root_events_zero_procs 4 (by decide)
  refine ⟨h, ?_⟩
  rw [h]
  simp

/-- C6 amended: for `world_size = 0` or a negative size the call does raise
an error and issues no point-to-point communication before it, and for a
negative size the error surfaces before any communication at all; but for
`world_size = 0` the broadcast of B is issued before the error surfaces. -/
theorem degenerate_surfaced (size : ℤ) (num_procs : ℕ)
    (h : num_procs = 0 ∨ size < 0) :
    (root_events_until_error size num_procs).2.isSome = true
    ∧ (∀ e ∈ (root_events_until_error size num_procs).1, e = CommEvent.bcast)
    ∧ (size < 0 → (root_events_until_error size num_procs).1 = []) := by
  by_cases hs : size < 0
  · rw [root_events_neg size num_procs hs]
    refine ⟨rfl, ?_, fun _ => rfl⟩
    intro e he
    cases he
  · have hz : num_procs = 0 := by tauto
    rw [hz, root_events_zero_procs size hs]
    refine ⟨rfl, ?_, fun hcon => absurd hcon hs⟩
    intro e he
    simpa using he

/-- Witness for C6's amended theorem at `size = -1`, `num_procs = 3`. -/
theorem degenerate_surfaced_witness :
    (root_events_until_error (-1) 3).2.isSome = true :=
  (degenerate_surfaced (-1) 3 (Or.inr (by decide))).1

/-- C7: when `total_rows < world_size`, every rank at index `total_rows`
or above gets a row range with `row_count = 0` (a valid empty range): its
local product is the empty block, it issues no scatter receive and no
gather send, the root neither sends to it nor receives from it, and the
root's output matrix still has exactly `total_rows` rows. -/
theorem empty_tail_ranges (size num_procs st : ℕ) (h : size < num_procs) :
    (∀ r, size ≤ r → r < num_procs →
      local_rows size num_procs r = 0
      ∧ local_C (genA size) (genB size) size num_procs r = []
      ∧ scatter_recv_events size num_procs r = []
      ∧ gather_send_events size num_procs r = []
      ∧ CommEvent.send 0 r r ∉ scatter_sends size num_procs
      ∧ CommEvent.recv r 0 (r + 100) ∉ gather_recvs size num_procs)
    ∧ (((mpi_matrix_multiply size num_procs 0 st).1).getD []).length = size := by
  have hp : 1 ≤ num_procs := by omega
  have hlr : ∀ r, size ≤ r → local_rows size num_procs r = 0 := by
    intro r hr
    unfold local_rows
    rw [Nat.mod_eq_of_lt h, Nat.div_eq_of_lt h, if_neg (by omega)]
  constructor
  · intro r hr1 hr2
    have h0 := hlr r hr1
    refine ⟨h0, ?_, ?_, ?_, ?_, ?_⟩
    · unfold local_C
      rw [h0]
      simp [zerosMat]
    · unfold scatter_recv_events
      rw [h0]
      simp
    · unfold gather_send_events
      rw [h0]
      simp
    · intro hmem
      have h3 := (mem_scatter_sends size num_procs r).mp hmem
      omega
    · intro hmem
      have h3 := (mem_gather_recvs size num_procs r).mp hmem
      omega
  · have hA : (genA size).length = size := np_random_rand_length size size _
    rw [mpi_root_result size num_procs st hp]
    show (np_dot (genA size) (genB size)).length = size
    rw [np_dot_length, hA]

/-- Witness for C7 at `total_rows = 2`, `world_size = 4`, rank 3. -/
theorem empty_tail_ranges_witness :
    local_rows 2 4 3 = 0
    ∧ (((mpi_matrix_multiply 2 4 0 0).1).getD []).length = 2 :=
  ⟨((empty_tail_ranges 2 4 0 (by decide)).1 3 (by decide) (by decide)).1,
   (empty_tail_ranges 2 4 0 (by decide)).2⟩

/-- C8: for `world_size = 1` the orchestrator's root output is `np.dot`
applied directly to the full generated A and B; the sole rank is assigned
the entire matrix (its row range is all `size` rows starting at 0, and its
block is all of A), and no point-to-point send or receive is issued in
either phase. -/
theorem single_process_direct (size st : ℕ) :
    (mpi_matrix_multiply size 1 0 st).1 = some (np_dot (genA size) (genB size))
    ∧ local_rows size 1 0 = size
    ∧ start_row size 1 0 = 0
    ∧ local_A (genA size) size 1 0 = genA size
    ∧ scatter_sends size 1 = []
    ∧ gather_recvs size 1 = [] := by
  have hA : (genA size).length = size := np_random_rand_length size size _
  have hlr : local_rows size 1 0 = size := by
    unfold local_rows
    rw [Nat.mod_one, Nat.div_one, if_neg (by omega)]
  have hsr : start_row size 1 0 = 0 := start_row_zero size 1
  have hlA : local_A (genA size) size 1 0 = genA size := by
    unfold local_A rowSlice
    rw [hlr, hsr, List.drop_zero]
    exact List.take_of_length_le (by omega)
  exact ⟨mpi_root_result size 1 st (by omega), hlr, hsr, hlA, rfl, rfl⟩

/-- C9: `verify_correctness` returns `True` on the root exactly when the
distributed result is `np.allclose` to the trusted serial product at
`rtol = atol = 1e-10` (which always holds here), returns `False` together
with the reported maximum absolute difference exactly when the comparison
fails, and returns `None` (reporting nothing) on every non-root rank. -/
theorem verify_behavior (size num_procs rank st : ℕ) (hp : 1 ≤ num_procs) :
    ((verify_correctness size num_procs rank st).1 = some true
      ↔ rank = 0 ∧ np_allclose (np_dot (genA size) (genB size))
          (((mpi_matrix_multiply size num_procs rank st).1).getD []) tol tol = true)
    ∧ ((verify_correctness size num_procs rank st).1 = some false
      ↔ rank = 0 ∧ np_allclose (np_dot (genA size) (genB size))
          (((mpi_matrix_multiply size num_procs rank st).1).getD []) tol tol = false)
    ∧ ((verify_correctness size num_procs rank st).1 = some false →
        (verify_correctness size num_procs rank st).2
          = some (maxAbsDiff (np_dot (genA size) (genB size))
              (((mpi_matrix_multiply size num_procs rank st).1).getD [])))
    ∧ (rank ≠ 0 → verify_correctness size num_procs rank st = (none, none))
    ∧ (rank = 0 → (verify_correctness size num_procs rank st).1 = some true) := by
  by_cases hr : rank = 0
  · subst hr
    have hall : np_allclose (np_dot (genA size) (genB size))
        (((mpi_matrix_multiply size num_procs 0 st).1).getD []) tol tol = true := by
      rw [mpi_root_result size num_procs st hp]
      exact np_allclose_self _
    have hv : verify_correctness size num_procs 0 st = (some true, none) := by
      unfold verify_correctness
      rw [if_pos rfl, if_pos hall]
    rw [hv]
    refine ⟨?_, ?_, ?_, fun hne => absurd rfl hne, fun _ => rfl⟩
    · simp [hall]
    · constructor
      · intro hcon
        simp at hcon
      · rintro ⟨-, hfalse⟩
        rw [hall] at hfalse
        cases hfalse
    · intro hcon
      simp at hcon
  · have hv : verify_correctness size num_procs rank st = (none, none) := by
      unfold verify_correctness
      rw [if_neg hr]
    rw [hv]
    refine ⟨?_, ?_, ?_, fun _ => rfl, fun h0 => absurd h0 hr⟩
    · simp [hr]
    · simp [hr]
    · intro hcon
      simp at hcon

/-- Witness for C9 at `size = 1`, `num_procs = 1`, root rank. -/
theorem verify_behavior_witness : (verify_correctness 1 1 0 0).1 = some true :=
  (verify_behavior 1 1 0 0 (by decide)).2.2.2.2 rfl

/-- C10: `mpi_matrix_multiply` takes no A or B from the caller; the root
generates both matrices from the fixed seed 42 regardless of the ambient
generator state, so the generated matrices and the root output are the
same for any two calls with the same `(size, num_procs)`, the root output
is the full product of the generated matrices, and every non-root rank
returns `None`. -/
theorem output_deterministic (size num_procs rank st st2 : ℕ) (hp : 1 ≤ num_procs) :
    (initialize_matrices size 0 st).1 = (initialize_matrices size 0 st2).1
    ∧ (mpi_matrix_multiply size num_procs 0 st).1
        = (mpi_matrix_multiply size num_procs 0 st2).1
    ∧ (mpi_matrix_multiply size num_procs 0 st).1
        = some (np_dot (genA size) (genB size))
    ∧ (1 ≤ rank → (mpi_matrix_multiply size num_procs rank st).1 = none) := by
  refine ⟨rfl, ?_, mpi_root_result size num_procs st hp, ?_⟩
  · rw [mpi_root_result size num_procs st hp, mpi_root_result size num_procs st2 hp]
  · intro hr
    unfold mpi_matrix_multiply
    rw [if_neg (by omega)]

/-- Witness for C10 at `size = 1`, `num_procs = 1`, rank 1, two different
generator states. -/
theorem output_deterministic_witness :
    (mpi_matrix_multiply 1 1 1 0).1 = none :=
  (output_deterministic 1 1 1 0 5 (by decide)).2.2.2 (by decide)
